import Mathlib

/-!
A verification development for a small Rust binary-search-tree library
(`src/lib.rs`).  The Rust type

  pub struct BinaryTree<T : Ord> { data: T, left: Option<Box<BinaryTree<T>>>,
                                   right: Option<Box<BinaryTree<T>>> }

is embedded as a nested inductive; `Box` is identity, `Option` stays `Option`.
The trait bound `T : Ord` (a total order with `==`, `<`, `>`) is embedded as
`[LinearOrder T]`.  Mutation of the tree in `insert` is embedded as a function
returning the updated tree.  The panicking bulk constructor `from_sorted`
returns `Option`, with `none` standing for the panic on empty input; a
recursive call that would panic propagates `none` outward, exactly as a Rust
panic would abort the whole call.
-/

set_option maxHeartbeats 1000000
set_option linter.unusedSectionVars false

namespace RustBinaryTree

/-- Embeds `pub struct BinaryTree<T : Ord> { data, left, right }`. -/
inductive BinaryTree (T : Type) : Type where
  | mk (data : T) (left : Option (BinaryTree T)) (right : Option (BinaryTree T))

namespace BinaryTree

variable {T : Type}

/-- Field accessor `self.data`. -/
def data : BinaryTree T → T
  | mk d _ _ => d

/-- Field accessor `self.left`. -/
def left : BinaryTree T → Option (BinaryTree T)
  | mk _ l _ => l

/-- Field accessor `self.right`. -/
def right : BinaryTree T → Option (BinaryTree T)
  | mk _ _ r => r

/-- Embeds `BinaryTree::leaf(data)`. -/
def leaf (d : T) : BinaryTree T :=
  mk d none none

/-- Embeds `BinaryTree::left(data, left)` (named `withLeft` because the field
accessor already uses the name `left`; the spec also calls it `withLeft`). -/
def withLeft (d : T) (l : BinaryTree T) : BinaryTree T :=
  mk d (some l) none

/-- Embeds `BinaryTree::right(data, right)`. -/
def withRight (d : T) (r : BinaryTree T) : BinaryTree T :=
  mk d none (some r)

/-- Embeds `BinaryTree::branch(data, left, right)`. -/
def branch (d : T) (l r : BinaryTree T) : BinaryTree T :=
  mk d (some l) (some r)

variable [LinearOrder T]

/-- Embeds `BinaryTree::contains`, keeping the source's exact branch
structure: `==`, then `>`, then `<`, then a final fall-through `false`. -/
def contains : BinaryTree T → T → Bool
  | mk d l r, value =>
    if value = d then
      true
    else if value > d then
      match r with
      | some rt => rt.contains value
      | none => false
    else if value < d then
      match l with
      | some lt => lt.contains value
      | none => false
    else
      false

/-- Embeds `BinaryTree::insert` (in-place mutation becomes returning the
updated tree; the duplicate case and the impossible final fall-through both
leave the tree unchanged). -/
def insert : BinaryTree T → T → BinaryTree T
  | mk d l r, value =>
    if value = d then
      mk d l r
    else if value > d then
      match r with
      | some rt => mk d l (some (rt.insert value))
      | none => mk d l (some (leaf value))
    else if value < d then
      match l with
      | some lt => mk d (some (lt.insert value)) r
      | none => mk d (some (leaf value)) r
    else
      mk d l r

/-- Specification helper (not in the source): the in-order list of values
held by a tree. -/
def toList : BinaryTree T → List T
  | mk d l r =>
    (match l with
     | some tl => tl.toList
     | none => []) ++ d :: (match r with
     | some tr => tr.toList
     | none => [])

/-- Specification helper: values of an optional subtree. -/
def optToList (o : Option (BinaryTree T)) : List T :=
  match o with
  | some t => t.toList
  | none => []

/-- Specification helper: number of nodes of a tree. -/
def size (t : BinaryTree T) : Nat :=
  t.toList.length

/-- Specification helper: the binary-search-tree invariant, as stated by the
spec: at every node, all values of the left subtree are strictly below the
node's value and all values of the right subtree strictly above it. -/
def isBST : BinaryTree T → Bool
  | mk d l r =>
    (match l with
     | some tl => tl.toList.all (fun x => decide (x < d)) && tl.isBST
     | none => true) &&
    (match r with
     | some tr => tr.toList.all (fun x => decide (d < x)) && tr.isBST
     | none => true)

/-- Embeds `BinaryTree::from_sorted`.  The panic on an empty slice is
modelled by returning `none`; a `none` from a recursive call propagates, as a
Rust panic would.  `data[pivot].clone()` is plain indexing, slices
`&data[0..pivot]` and `&data[(pivot+1)..len]` are `take`/`drop`. -/
def from_sorted (data : List T) : Option (BinaryTree T) :=
  if h : data.length = 0 then
    none
  else
    -- integer division by 2 (the source computes `len >> 1`)
    let pivot := data.length >>> 1
    let pd := data.get ⟨pivot, by
      show data.length >>> 1 < data.length
      rw [Nat.shiftRight_eq_div_pow, pow_one]
      omega⟩
    let leftRes : Option (Option (BinaryTree T)) :=
      if 0 < pivot then Option.map some (from_sorted (data.take pivot)) else some none
    let rightRes : Option (Option (BinaryTree T)) :=
      if pivot + 1 < data.length then Option.map some (from_sorted (data.drop (pivot + 1)))
      else some none
    match leftRes, rightRes with
    | some l, some r => some (mk pd l r)
    | _, _ => none
termination_by data.length
decreasing_by
  all_goals simp only [List.length_take, List.length_drop, Nat.shiftRight_eq_div_pow, pow_one]
  all_goals omega

/-- Embeds `BinaryTree::from`: sort the data ascending in place, then delegate
to `from_sorted`.  Rust's stable ascending `sort()` is modelled by
`List.mergeSort`.  Named `build` (the spec's name for it) because `from` is a
reserved word in Lean. -/
def build (data : List T) : Option (BinaryTree T) :=
  from_sorted data.mergeSort

/-- Fuel-indexed variant of `from_sorted`, used to state that the recursion
depth of `from_sorted` is bounded by the length of its input: `none` is
returned when the fuel runs out. -/
def from_sorted_fuel : Nat → List T → Option (BinaryTree T)
  | 0, _ => none
  | fuel + 1, data =>
    if h : data.length = 0 then
      none
    else
      let pivot := data.length >>> 1
      let pd := data.get ⟨pivot, by
        show data.length >>> 1 < data.length
        rw [Nat.shiftRight_eq_div_pow, pow_one]
        omega⟩
      let leftRes : Option (Option (BinaryTree T)) :=
        if 0 < pivot then Option.map some (from_sorted_fuel fuel (data.take pivot)) else some none
      let rightRes : Option (Option (BinaryTree T)) :=
        if pivot + 1 < data.length then Option.map some (from_sorted_fuel fuel (data.drop (pivot + 1)))
        else some none
      match leftRes, rightRes with
      | some l, some r => some (mk pd l r)
      | _, _ => none

/-- The spec's description of `contains` has only three branches: equal,
greater, and an unconditional "else (the value is less)" — no fourth
fall-through.  This definition follows the spec's words, to be compared with
`contains`, which follows the source. -/
def containsSpec : BinaryTree T → T → Bool
  | mk d l r, value =>
    if value = d then
      true
    else if value > d then
      match r with
      | some rt => rt.containsSpec value
      | none => false
    else
      match l with
      | some tl => tl.containsSpec value
      | none => false

/-- Variant of `contains` with the final fall-through `return false` replaced by an
arbitrary boolean `fb`: proving the result independent of `fb` proves that the
fall-through branch is unreachable. -/
def containsFB (fb : Bool) : BinaryTree T → T → Bool
  | mk d l r, value =>
    if value = d then
      true
    else if value > d then
      match r with
      | some rt => containsFB fb rt value
      | none => false
    else if value < d then
      match l with
      | some tl => containsFB fb tl value
      | none => false
    else
      fb

/-- Specification helper: the BST invariant of an optional subtree. -/
def optBST (o : Option (BinaryTree T)) : Bool :=
  match o with
  | some t => t.isBST
  | none => true

/-- Specification helper: membership in an optional subtree (`false` for an
absent child, as in the source's `match`). -/
def optContains (o : Option (BinaryTree T)) (value : T) : Bool :=
  match o with
  | some t => t.contains value
  | none => false

/-- Specification helper: `containsSpec` on an optional subtree. -/
def optContainsSpec (o : Option (BinaryTree T)) (value : T) : Bool :=
  match o with
  | some t => t.containsSpec value
  | none => false

/-- Specification helper: `containsFB` on an optional subtree. -/
def optContainsFB (fb : Bool) (o : Option (BinaryTree T)) (value : T) : Bool :=
  match o with
  | some t => containsFB fb t value
  | none => false

/-- Specification helper: the subtree replacing an optional child after an
insertion routed into it (`insert` into a present child, a fresh leaf for an
absent one). -/
def optInsert (o : Option (BinaryTree T)) (v : T) : BinaryTree T :=
  match o with
  | some t => t.insert v
  | none => leaf v

/-- Relation `ExtendsByLeaf v t u` says: `u` is `t` with exactly one previously absent
child slot filled by the fresh leaf `leaf v`, reached along a path of existing
nodes; every other node keeps its value and its other child untouched. -/
inductive ExtendsByLeaf (v : T) : BinaryTree T → BinaryTree T → Prop where
  | attachRight (d : T) (l : Option (BinaryTree T)) :
      ExtendsByLeaf v (mk d l none) (mk d l (some (leaf v)))
  | attachLeft (d : T) (r : Option (BinaryTree T)) :
      ExtendsByLeaf v (mk d none r) (mk d (some (leaf v)) r)
  | goRight (d : T) (l : Option (BinaryTree T)) (r r2 : BinaryTree T) :
      ExtendsByLeaf v r r2 → ExtendsByLeaf v (mk d l (some r)) (mk d l (some r2))
  | goLeft (d : T) (l l2 : BinaryTree T) (r : Option (BinaryTree T)) :
      ExtendsByLeaf v l l2 → ExtendsByLeaf v (mk d (some l) r) (mk d (some l2) r)

/-- The literal reading of "built via any combination of the four
constructors, insert calls, and bulk build": no side conditions at all. -/
inductive BuiltAny [LinearOrder T] : BinaryTree T → Prop where
  | ofLeaf (d : T) : BuiltAny (leaf d)
  | ofWithLeft (d : T) (l : BinaryTree T) : BuiltAny l → BuiltAny (withLeft d l)
  | ofWithRight (d : T) (r : BinaryTree T) : BuiltAny r → BuiltAny (withRight d r)
  | ofBranch (d : T) (l r : BinaryTree T) : BuiltAny l → BuiltAny r →
      BuiltAny (branch d l r)
  | ofInsert (t : BinaryTree T) (v : T) : BuiltAny t → BuiltAny (t.insert v)
  | ofFromSorted (S : List T) (t : BinaryTree T) : from_sorted S = some t →
      BuiltAny t
  | ofBuild (S : List T) (t : BinaryTree T) : build S = some t → BuiltAny t

/-- Trees built with ordering discipline: the compound constructors are
applied only to subtrees whose values are compatible with the new root (which
the constructors themselves never check), `from_sorted` is fed strictly
ascending input, and `build` is fed duplicate-free input. -/
inductive BuiltOrdered [LinearOrder T] : BinaryTree T → Prop where
  | ofLeaf (d : T) : BuiltOrdered (leaf d)
  | ofWithLeft (d : T) (l : BinaryTree T) : BuiltOrdered l →
      (∀ x ∈ l.toList, x < d) → BuiltOrdered (withLeft d l)
  | ofWithRight (d : T) (r : BinaryTree T) : BuiltOrdered r →
      (∀ x ∈ r.toList, d < x) → BuiltOrdered (withRight d r)
  | ofBranch (d : T) (l r : BinaryTree T) : BuiltOrdered l → BuiltOrdered r →
      (∀ x ∈ l.toList, x < d) → (∀ x ∈ r.toList, d < x) →
      BuiltOrdered (branch d l r)
  | ofInsert (t : BinaryTree T) (v : T) : BuiltOrdered t →
      BuiltOrdered (t.insert v)
  | ofFromSorted (S : List T) (t : BinaryTree T) : List.Pairwise (· < ·) S →
      from_sorted S = some t → BuiltOrdered t
  | ofBuild (S : List T) (t : BinaryTree T) : S.Nodup → build S = some t →
      BuiltOrdered t

/-- Recursion principle for `BinaryTree` exposing the optional children. -/
theorem ind {motive : BinaryTree T → Prop}
    (h : ∀ d l r, (∀ t, l = some t → motive t) → (∀ t, r = some t → motive t) →
      motive (mk d l r)) :
    ∀ t, motive t
  | mk d none none =>
    h d none none (fun _ ht => by cases ht) (fun _ ht => by cases ht)
  | mk d (some tl) none =>
    h d (some tl) none
      (fun t ht => by
        have h2 : tl = t := by injection ht
        subst h2
        exact ind h tl)
      (fun _ ht => by cases ht)
  | mk d none (some tr) =>
    h d none (some tr)
      (fun _ ht => by cases ht)
      (fun t ht => by
        have h2 : tr = t := by injection ht
        subst h2
        exact ind h tr)
  | mk d (some tl) (some tr) =>
    h d (some tl) (some tr)
      (fun t ht => by
        have h2 : tl = t := by injection ht
        subst h2
        exact ind h tl)
      (fun t ht => by
        have h2 : tr = t := by injection ht
        subst h2
        exact ind h tr)

theorem toList_mk (d : T) (l r : Option (BinaryTree T)) :
    (mk d l r).toList = optToList l ++ d :: optToList r := by
  cases l <;> cases r <;> rfl

theorem toList_leaf (d : T) : (leaf d).toList = [d] :=
  rfl

theorem optToList_none : optToList (none : Option (BinaryTree T)) = [] :=
  rfl

theorem optToList_some (t : BinaryTree T) : optToList (some t) = t.toList :=
  rfl

theorem optBST_none [LinearOrder T] :
    optBST (none : Option (BinaryTree T)) = true :=
  rfl

theorem optBST_some [LinearOrder T] (t : BinaryTree T) : optBST (some t) = t.isBST :=
  rfl

theorem optContains_none [LinearOrder T] (v : T) :
    optContains (none : Option (BinaryTree T)) v = false :=
  rfl

theorem optContains_some [LinearOrder T] (t : BinaryTree T) (v : T) :
    optContains (some t) v = t.contains v :=
  rfl

theorem isBST_mk (d : T) (l r : Option (BinaryTree T)) :
    (mk d l r).isBST =
      (((optToList l).all (fun x => decide (x < d)) && optBST l) &&
        ((optToList r).all (fun x => decide (d < x)) && optBST r)) := by
  cases l <;> cases r <;> rfl

theorem contains_mk (d : T) (l r : Option (BinaryTree T)) (value : T) :
    (mk d l r).contains value =
      (if value = d then true
       else if value > d then optContains r value
       else if value < d then optContains l value
       else false) := by
  cases l <;> cases r <;> rfl

/-- A tree whose in-order list is strictly sorted satisfies the BST
invariant. -/
theorem isBST_of_pairwise : ∀ t : BinaryTree T, List.Pairwise (· < ·) t.toList →
    t.isBST = true := by
  intro t
  induction t using ind with
  | h d l r ihl ihr =>
    intro hp
    rw [toList_mk, List.pairwise_append, List.pairwise_cons] at hp
    obtain ⟨hpl, ⟨hdr, hpr⟩, hcross⟩ := hp
    rw [isBST_mk]
    simp only [Bool.and_eq_true, List.all_eq_true, decide_eq_true_eq]
    refine ⟨⟨fun x hx => hcross x hx d (List.mem_cons_self _ _), ?_⟩,
      fun x hx => hdr x hx, ?_⟩
    · cases l with
      | none => rfl
      | some tl => exact ihl tl rfl hpl
    · cases r with
      | none => rfl
      | some tr => exact ihr tr rfl hpr

/-- On a tree satisfying the BST invariant, `contains` decides membership in
the tree's set of values. -/
theorem contains_mem : ∀ (t : BinaryTree T) (x : T), t.isBST = true →
    (t.contains x = true ↔ x ∈ t.toList) := by
  intro t
  induction t using ind with
  | h d l r ihl ihr =>
    intro x hbst
    rw [isBST_mk] at hbst
    simp only [Bool.and_eq_true, List.all_eq_true, decide_eq_true_eq] at hbst
    obtain ⟨⟨hallL, hbstL⟩, hallR, hbstR⟩ := hbst
    rw [toList_mk, contains_mk]
    by_cases hxd : x = d
    · subst hxd
      simp
    · rw [if_neg hxd]
      by_cases hgt : x > d
      · rw [if_pos hgt]
        have hnotleft : x ∉ optToList l := fun hmem =>
          absurd (hallL x hmem) (lt_asymm hgt)
        cases r with
        | none =>
          simp [optContains_none, optToList_none, hxd, hnotleft]
        | some tr =>
          have hrec : tr.contains x = true ↔ x ∈ tr.toList :=
            ihr tr rfl x hbstR
          rw [optContains_some, hrec, optToList_some]
          simp [hxd, hnotleft]
      · have hlt : x < d := lt_of_le_of_ne (le_of_not_gt hgt) hxd
        rw [if_neg hgt, if_pos hlt]
        have hnotright : x ∉ optToList r := fun hmem =>
          absurd (hallR x hmem) (lt_asymm hlt)
        cases l with
        | none =>
          simp [optContains_none, optToList_none, hxd, hnotright]
        | some tl =>
          have hrec : tl.contains x = true ↔ x ∈ tl.toList :=
            ihl tl rfl x hbstL
          rw [optContains_some, hrec, optToList_some]
          simp [hxd, hnotright]

theorem shiftRight_one_div_two (n : Nat) : n >>> 1 = n / 2 := by
  rw [Nat.shiftRight_eq_div_pow, pow_one]

/-- One-step unfolding of `from_sorted` on a non-empty list. -/
theorem from_sorted_unfold (S : List T) (hne : S.length ≠ 0)
    (hpf : S.length >>> 1 < S.length) :
    from_sorted S =
      match
        (if 0 < S.length >>> 1 then
          Option.map some (from_sorted (S.take (S.length >>> 1)))
         else some none),
        (if S.length >>> 1 + 1 < S.length then
          Option.map some (from_sorted (S.drop (S.length >>> 1 + 1)))
         else some none) with
      | some l, some r => some (mk (S.get ⟨S.length >>> 1, hpf⟩) l r)
      | _, _ => none := by
  rw [from_sorted]
  rw [dif_neg hne]

/-- Function `from_sorted` succeeds on every non-empty list, and the in-order value
list of the tree it returns is exactly its input. -/
theorem from_sorted_spec (S : List T) (hne : S ≠ []) :
    ∃ t : BinaryTree T, from_sorted S = some t ∧ t.toList = S := by
  have hlen : S.length ≠ 0 := fun h0 => hne (List.length_eq_zero.mp h0)
  have hdiv : S.length >>> 1 = S.length / 2 := shiftRight_one_div_two S.length
  have hpf : S.length >>> 1 < S.length := by omega
  obtain ⟨lopt, hleft, hltl⟩ :
      ∃ lopt, (if 0 < S.length >>> 1 then
          Option.map some (from_sorted (S.take (S.length >>> 1))) else some none) = some lopt
        ∧ optToList lopt = S.take (S.length >>> 1) := by
    by_cases hL : 0 < S.length >>> 1
    · have htake_ne : S.take (S.length >>> 1) ≠ [] := by
        intro h0
        have h1 := congrArg List.length h0
        simp only [List.length_take, List.length_nil] at h1
        omega
      obtain ⟨tl, htl, htl2⟩ := from_sorted_spec (S.take (S.length >>> 1)) htake_ne
      exact ⟨some tl, by rw [if_pos hL, htl]; rfl, by rw [optToList_some, htl2]⟩
    · refine ⟨none, by rw [if_neg hL], ?_⟩
      have h0 : S.length >>> 1 = 0 := by omega
      rw [h0, optToList_none, List.take_zero]
  obtain ⟨ropt, hright, hrtl⟩ :
      ∃ ropt, (if S.length >>> 1 + 1 < S.length then
          Option.map some (from_sorted (S.drop (S.length >>> 1 + 1))) else some none) = some ropt
        ∧ optToList ropt = S.drop (S.length >>> 1 + 1) := by
    by_cases hR : S.length >>> 1 + 1 < S.length
    · have hdrop_ne : S.drop (S.length >>> 1 + 1) ≠ [] := by
        intro h0
        have h1 := congrArg List.length h0
        simp only [List.length_drop, List.length_nil] at h1
        omega
      obtain ⟨tr, htr, htr2⟩ := from_sorted_spec (S.drop (S.length >>> 1 + 1)) hdrop_ne
      exact ⟨some tr, by rw [if_pos hR, htr]; rfl, by rw [optToList_some, htr2]⟩
    · refine ⟨none, by rw [if_neg hR], ?_⟩
      rw [optToList_none]
      exact (List.drop_eq_nil_of_le (by omega)).symm
  refine ⟨mk (S.get ⟨S.length >>> 1, hpf⟩) lopt ropt, ?_, ?_⟩
  · rw [from_sorted_unfold S hlen hpf, hleft, hright]
  · rw [toList_mk, hltl, hrtl, List.get_eq_getElem, List.getElem_cons_drop,
      List.take_append_drop]
termination_by S.length
decreasing_by
  all_goals simp only [List.length_take, List.length_drop]
  all_goals omega

theorem from_sorted_nil : from_sorted ([] : List T) = none := by
  rw [from_sorted]
  rfl

theorem from_sorted_isSome (S : List T) (hne : S ≠ []) :
    (from_sorted S).isSome = true := by
  obtain ⟨t, ht, _⟩ := from_sorted_spec S hne
  rw [ht]
  rfl

theorem from_sorted_toList (S : List T) (t : BinaryTree T)
    (h : from_sorted S = some t) : t.toList = S := by
  rcases eq_or_ne S [] with rfl | hne
  · rw [from_sorted_nil] at h
    cases h
  · obtain ⟨t2, ht2, htl⟩ := from_sorted_spec S hne
    rw [ht2] at h
    injection h with h
    rw [← h]
    exact htl

/-- On strictly sorted input, `from_sorted` returns a tree satisfying the BST
invariant. -/
theorem from_sorted_isBST (S : List T) (t : BinaryTree T)
    (hs : List.Pairwise (· < ·) S) (h : from_sorted S = some t) :
    t.isBST = true :=
  isBST_of_pairwise t (by rw [from_sorted_toList S t h]; exact hs)

theorem isBST_leaf (d : T) : (leaf d).isBST = true :=
  rfl

theorem not_eq_not_gt_not_lt {v d : T} (h1 : ¬v = d) (h2 : ¬v > d) (h3 : ¬v < d) :
    False :=
  h1 (le_antisymm (le_of_not_lt h2) (le_of_not_lt h3))

theorem contains_leaf_self (v : T) : (leaf v).contains v = true := by
  have h : (mk v none none).contains v = true := by rw [contains_mk, if_pos rfl]
  exact h

theorem insert_mk (d : T) (l r : Option (BinaryTree T)) (value : T) :
    (mk d l r).insert value =
      (if value = d then mk d l r
       else if value > d then mk d l (some (optInsert r value))
       else if value < d then mk d (some (optInsert l value)) r
       else mk d l r) := by
  cases l <;> cases r <;> rfl

/-- After inserting `v`, the tree contains `v` (whatever the tree was). -/
theorem contains_insert_self : ∀ (t : BinaryTree T) (v : T),
    (t.insert v).contains v = true := by
  intro t
  induction t using ind with
  | h d l r ihl ihr =>
    intro v
    rw [insert_mk]
    by_cases hvd : v = d
    · rw [if_pos hvd, contains_mk, if_pos hvd]
    · rw [if_neg hvd]
      by_cases hgt : v > d
      · rw [if_pos hgt, contains_mk, if_neg hvd, if_pos hgt, optContains_some]
        cases r with
        | none => rw [optInsert]; exact contains_leaf_self v
        | some rt => rw [optInsert]; exact ihr rt rfl v
      · have hlt : v < d := lt_of_le_of_ne (le_of_not_lt hgt) hvd
        rw [if_neg hgt, if_pos hlt, contains_mk, if_neg hvd, if_neg hgt, if_pos hlt,
          optContains_some]
        cases l with
        | none => rw [optInsert]; exact contains_leaf_self v
        | some tl => rw [optInsert]; exact ihl tl rfl v

/-- Inserting a value that `contains` already finds leaves the tree entirely
unchanged (the silent duplicate no-op). -/
theorem insert_of_contains : ∀ (t : BinaryTree T) (v : T),
    t.contains v = true → t.insert v = t := by
  intro t
  induction t using ind with
  | h d l r ihl ihr =>
    intro v hc
    rw [contains_mk] at hc
    rw [insert_mk]
    by_cases hvd : v = d
    · rw [if_pos hvd]
    · rw [if_neg hvd] at hc ⊢
      by_cases hgt : v > d
      · rw [if_pos hgt] at hc ⊢
        cases r with
        | none => rw [optContains_none] at hc; cases hc
        | some rt =>
          rw [optContains_some] at hc
          rw [optInsert, ihr rt rfl v hc]
      · have hlt : v < d := lt_of_le_of_ne (le_of_not_lt hgt) hvd
        rw [if_neg hgt, if_pos hlt] at hc ⊢
        cases l with
        | none => rw [optContains_none] at hc; cases hc
        | some tl =>
          rw [optContains_some] at hc
          rw [optInsert, ihl tl rfl v hc]

/-- Function `insert` preserves any value-wise bound satisfied by both the tree and the
inserted value. -/
theorem all_insert (p : T → Bool) : ∀ (t : BinaryTree T) (v : T),
    t.toList.all p = true → p v = true → (t.insert v).toList.all p = true := by
  intro t
  induction t using ind with
  | h d l r ihl ihr =>
    intro v hall hv
    rw [toList_mk] at hall
    simp only [List.all_append, List.all_cons, Bool.and_eq_true] at hall
    obtain ⟨hL, hd, hR⟩ := hall
    rw [insert_mk]
    by_cases hvd : v = d
    · rw [if_pos hvd, toList_mk]
      simp only [List.all_append, List.all_cons, Bool.and_eq_true]
      exact ⟨hL, hd, hR⟩
    · rw [if_neg hvd]
      by_cases hgt : v > d
      · rw [if_pos hgt, toList_mk, optToList_some]
        simp only [List.all_append, List.all_cons, Bool.and_eq_true]
        refine ⟨hL, hd, ?_⟩
        cases r with
        | none =>
          rw [optInsert, toList_leaf]
          simp only [List.all_cons, List.all_nil, Bool.and_true]
          exact hv
        | some rt =>
          rw [optInsert]
          exact ihr rt rfl v (by rwa [optToList_some] at hR) hv
      · have hlt : v < d := lt_of_le_of_ne (le_of_not_lt hgt) hvd
        rw [if_neg hgt, if_pos hlt, toList_mk, optToList_some]
        simp only [List.all_append, List.all_cons, Bool.and_eq_true]
        refine ⟨?_, hd, hR⟩
        cases l with
        | none =>
          rw [optInsert, toList_leaf]
          simp only [List.all_cons, List.all_nil, Bool.and_true]
          exact hv
        | some tl =>
          rw [optInsert]
          exact ihl tl rfl v (by rwa [optToList_some] at hL) hv

/-- Function `insert` preserves the BST invariant. -/
theorem isBST_insert : ∀ (t : BinaryTree T) (v : T),
    t.isBST = true → (t.insert v).isBST = true := by
  intro t
  induction t using ind with
  | h d l r ihl ihr =>
    intro v hbst
    rw [isBST_mk] at hbst
    simp only [Bool.and_eq_true] at hbst
    obtain ⟨⟨hallL, hbstL⟩, hallR, hbstR⟩ := hbst
    rw [insert_mk]
    by_cases hvd : v = d
    · rw [if_pos hvd, isBST_mk]
      simp only [Bool.and_eq_true]
      exact ⟨⟨hallL, hbstL⟩, hallR, hbstR⟩
    · rw [if_neg hvd]
      by_cases hgt : v > d
      · rw [if_pos hgt, isBST_mk]
        simp only [Bool.and_eq_true]
        refine ⟨⟨hallL, hbstL⟩, ?_, ?_⟩
        · rw [optToList_some]
          cases r with
          | none =>
            rw [optInsert, toList_leaf]
            simp only [List.all_cons, List.all_nil, Bool.and_true, decide_eq_true_eq]
            exact hgt
          | some rt =>
            rw [optInsert]
            exact all_insert _ rt v (by rwa [optToList_some] at hallR)
              (decide_eq_true hgt)
        · rw [optBST_some]
          cases r with
          | none => rw [optInsert]; exact isBST_leaf v
          | some rt =>
            rw [optInsert]
            exact ihr rt rfl v (by rwa [optBST_some] at hbstR)
      · have hlt : v < d := lt_of_le_of_ne (le_of_not_lt hgt) hvd
        rw [if_neg hgt, if_pos hlt, isBST_mk]
        simp only [Bool.and_eq_true]
        refine ⟨⟨?_, ?_⟩, hallR, hbstR⟩
        · rw [optToList_some]
          cases l with
          | none =>
            rw [optInsert, toList_leaf]
            simp only [List.all_cons, List.all_nil, Bool.and_true, decide_eq_true_eq]
            exact hlt
          | some tl =>
            rw [optInsert]
            exact all_insert _ tl v (by rwa [optToList_some] at hallL)
              (decide_eq_true hlt)
        · rw [optBST_some]
          cases l with
          | none => rw [optInsert]; exact isBST_leaf v
          | some tl =>
            rw [optInsert]
            exact ihl tl rfl v (by rwa [optBST_some] at hbstL)

/-- When the descent does not hit the duplicate case, `insert` attaches
exactly one new leaf at the position the comparison chain reaches. -/
theorem insert_extends : ∀ (t : BinaryTree T) (v : T),
    t.contains v = false → ExtendsByLeaf v t (t.insert v) := by
  intro t
  induction t using ind with
  | h d l r ihl ihr =>
    intro v hc
    rw [contains_mk] at hc
    rw [insert_mk]
    by_cases hvd : v = d
    · rw [if_pos hvd] at hc
      exact Bool.noConfusion hc
    · rw [if_neg hvd] at hc ⊢
      by_cases hgt : v > d
      · rw [if_pos hgt] at hc ⊢
        cases r with
        | none =>
          rw [optInsert]
          exact ExtendsByLeaf.attachRight d l
        | some rt =>
          rw [optInsert]
          rw [optContains_some] at hc
          exact ExtendsByLeaf.goRight d l rt _ (ihr rt rfl v hc)
      · have hlt : v < d := lt_of_le_of_ne (le_of_not_lt hgt) hvd
        rw [if_neg hgt, if_pos hlt] at hc ⊢
        cases l with
        | none =>
          rw [optInsert]
          exact ExtendsByLeaf.attachLeft d r
        | some tl =>
          rw [optInsert]
          rw [optContains_some] at hc
          exact ExtendsByLeaf.goLeft d tl _ r (ihl tl rfl v hc)

/-- Attaching one leaf grows the node count by exactly one. -/
theorem extends_size {v : T} {t u : BinaryTree T} (h : ExtendsByLeaf v t u) :
    u.size = t.size + 1 := by
  induction h with
  | attachRight d l =>
    simp [size, toList_mk, optToList_none, optToList_some, toList_leaf]
  | attachLeft d r =>
    simp [size, toList_mk, optToList_none, optToList_some, toList_leaf]
  | goRight d l r r2 _ ih =>
    simp only [size, toList_mk, optToList_some, List.length_append,
      List.length_cons] at ih ⊢
    omega
  | goLeft d l l2 r _ ih =>
    simp only [size, toList_mk, optToList_some, List.length_append,
      List.length_cons] at ih ⊢
    omega

/-- The tree never shrinks under `insert`. -/
theorem size_le_insert (t : BinaryTree T) (v : T) : t.size ≤ (t.insert v).size := by
  cases hc : t.contains v with
  | true => rw [insert_of_contains t v hc]
  | false => rw [extends_size (insert_extends t v hc)]; omega

/-- One-step unfolding of `from_sorted_fuel` with positive fuel on a
non-empty list. -/
theorem from_sorted_fuel_unfold (n : Nat) (S : List T) (hne : S.length ≠ 0)
    (hpf : S.length >>> 1 < S.length) :
    from_sorted_fuel (n + 1) S =
      match
        (if 0 < S.length >>> 1 then
          Option.map some (from_sorted_fuel n (S.take (S.length >>> 1)))
         else some none),
        (if S.length >>> 1 + 1 < S.length then
          Option.map some (from_sorted_fuel n (S.drop (S.length >>> 1 + 1)))
         else some none) with
      | some l, some r => some (mk (S.get ⟨S.length >>> 1, hpf⟩) l r)
      | _, _ => none := by
  rw [from_sorted_fuel]
  rw [dif_neg hne]

/-- The recursion depth of `from_sorted` is bounded by the input length: with
at least `S.length` units of fuel, the fuelled variant never runs dry and
agrees with `from_sorted`. -/
theorem from_sorted_fuel_eq : ∀ (fuel : Nat) (S : List T), S.length ≤ fuel →
    from_sorted_fuel fuel S = from_sorted S := by
  intro fuel
  induction fuel with
  | zero =>
    intro S hS
    have h0 : S = [] := List.length_eq_zero.mp (Nat.le_zero.mp hS)
    subst h0
    rw [from_sorted_nil]
    rfl
  | succ n ih =>
    intro S hS
    by_cases h0 : S.length = 0
    · have hnil : S = [] := List.length_eq_zero.mp h0
      subst hnil
      rw [from_sorted_nil, from_sorted_fuel, dif_pos h0]
    · have hdiv := shiftRight_one_div_two S.length
      have hpf : S.length >>> 1 < S.length := by omega
      rw [from_sorted_unfold S h0 hpf, from_sorted_fuel_unfold n S h0 hpf]
      rw [ih (S.take (S.length >>> 1))
        (by simp only [List.length_take]; omega)]
      rw [ih (S.drop (S.length >>> 1 + 1))
        (by simp only [List.length_drop]; omega)]

theorem build_def (S : List T) : build S = from_sorted S.mergeSort :=
  rfl

/-- Sorting a duplicate-free list ascending yields a strictly sorted list. -/
theorem pairwise_lt_mergeSort (S : List T) (hnd : S.Nodup) :
    List.Pairwise (· < ·) S.mergeSort := by
  have hs : List.Sorted (· ≤ ·) S.mergeSort := List.sorted_mergeSort' S
  have hnd2 : S.mergeSort.Nodup := ((List.mergeSort_perm S _).nodup_iff).mpr hnd
  exact List.Pairwise.imp (fun h => lt_of_le_of_ne h.1 h.2) (hs.and hnd2)

/-- Sorting is invariant under permutation of the input. -/
theorem mergeSort_eq_of_perm (S S2 : List T) (h : S.Perm S2) :
    S.mergeSort = S2.mergeSort :=
  List.eq_of_perm_of_sorted
    ((List.mergeSort_perm S _).trans (h.trans (List.mergeSort_perm S2 _).symm))
    (List.sorted_mergeSort' S) (List.sorted_mergeSort' S2)

theorem data_mk (d : T) (l r : Option (BinaryTree T)) : (mk d l r).data = d :=
  rfl

theorem containsSpec_mk (d : T) (l r : Option (BinaryTree T)) (value : T) :
    (mk d l r).containsSpec value =
      (if value = d then true
       else if value > d then optContainsSpec r value
       else optContainsSpec l value) := by
  cases l <;> cases r <;> rfl

theorem containsFB_mk (fb : Bool) (d : T) (l r : Option (BinaryTree T))
    (value : T) :
    containsFB fb (mk d l r) value =
      (if value = d then true
       else if value > d then optContainsFB fb r value
       else if value < d then optContainsFB fb l value
       else fb) := by
  cases l <;> cases r <;> rfl

theorem from_sorted_c123 :
    from_sorted ([1, 2, 3] : List Int) = some (branch 2 (leaf 1) (leaf 3)) := by
  simp [from_sorted, branch, leaf]

theorem from_sorted_c1234 :
    from_sorted ([1, 2, 3, 4] : List Int)
      = some (branch 3 (withLeft 2 (leaf 1)) (leaf 4)) := by
  simp [from_sorted, branch, withLeft, leaf]

theorem optContainsSpec_none (v : T) :
    optContainsSpec (none : Option (BinaryTree T)) v = false :=
  rfl

theorem optContainsSpec_some (t : BinaryTree T) (v : T) :
    optContainsSpec (some t) v = t.containsSpec v :=
  rfl

theorem optContainsFB_none (fb : Bool) (v : T) :
    optContainsFB fb (none : Option (BinaryTree T)) v = false :=
  rfl

theorem optContainsFB_some (fb : Bool) (t : BinaryTree T) (v : T) :
    optContainsFB fb (some t) v = containsFB fb t v :=
  rfl

/-- C1: for every ascending, pairwise-distinct (hence strictly sorted)
sequence `S` on which `from_sorted` succeeds (i.e. every non-empty such `S`),
the resulting tree's `contains` answers `true` exactly on the members of
`S`. -/
theorem from_sorted_roundtrip_contains (S : List T) (t : BinaryTree T)
    (hs : List.Pairwise (· < ·) S) (h : from_sorted S = some t) (x : T) :
    t.contains x = true ↔ x ∈ S := by
  rw [contains_mem t x (from_sorted_isBST S t hs h), from_sorted_toList S t h]

/-- Witness for C1 at `S = [1,2,3]`, checking one member and one
non-member. -/
theorem from_sorted_roundtrip_contains_witness :
    ((branch 2 (leaf 1) (leaf 3)).contains 2 = true ↔ (2 : Int) ∈ [1, 2, 3])
    ∧ ((branch 2 (leaf 1) (leaf 3)).contains 5 = true ↔ (5 : Int) ∈ [1, 2, 3]) :=
  ⟨from_sorted_roundtrip_contains [1, 2, 3] _ (by decide) from_sorted_c123 2,
   from_sorted_roundtrip_contains [1, 2, 3] _ (by decide) from_sorted_c123 5⟩

/-- C2: on every tree and query, `contains` computes exactly the spec's
three-branch descent (equal ⇒ true; greater ⇒ right child or false when
absent; less ⇒ left child or false when absent); being a pure function of
its arguments, it has no side effects. -/
theorem contains_follows_descent : ∀ (t : BinaryTree T) (v : T),
    t.contains v = containsSpec t v := by
  intro t
  induction t using ind with
  | h d l r ihl ihr =>
    intro v
    rw [contains_mk, containsSpec_mk]
    by_cases hvd : v = d
    · rw [if_pos hvd, if_pos hvd]
    · rw [if_neg hvd, if_neg hvd]
      by_cases hgt : v > d
      · rw [if_pos hgt, if_pos hgt]
        cases r with
        | none => rw [optContains_none, optContainsSpec_none]
        | some rt =>
          rw [optContains_some, optContainsSpec_some]
          exact ihr rt rfl v
      · have hlt : v < d := lt_of_le_of_ne (le_of_not_lt hgt) hvd
        rw [if_neg hgt, if_neg hgt, if_pos hlt]
        cases l with
        | none => rw [optContains_none, optContainsSpec_none]
        | some tl =>
          rw [optContains_some, optContainsSpec_some]
          exact ihl tl rfl v

/-- C3: inserting a value already found by the comparison descent is a silent
no-op leaving the tree entirely unchanged, and `insert` is idempotent:
inserting the same value twice yields exactly the tree of a single
insertion. -/
theorem insert_duplicate_noop_idem (t : BinaryTree T) (v : T) :
    (t.contains v = true → t.insert v = t)
    ∧ (t.insert v).insert v = t.insert v :=
  ⟨insert_of_contains t v,
   insert_of_contains (t.insert v) v (contains_insert_self t v)⟩

/-- Witness for C3 at `t = leaf 5`: inserting the duplicate `5` is a no-op,
and inserting `7` twice equals inserting it once. -/
theorem insert_duplicate_noop_idem_witness :
    (leaf (5 : Int)).insert 5 = leaf 5
    ∧ ((leaf (5 : Int)).insert 7).insert 7 = (leaf (5 : Int)).insert 7 :=
  ⟨(insert_duplicate_noop_idem (leaf 5) 5).1 (by decide),
   (insert_duplicate_noop_idem (leaf 5) 7).2⟩

/-- C4 counterexample: `withLeft 1 (leaf 5)` is built from the constructors
alone — a combination the claim covers — yet violates the BST invariant: its
left subtree holds `5 > 1`.  (The constructors perform no validation.) -/
theorem constructors_can_violate_bst :
    BuiltAny (withLeft (1 : Int) (leaf 5))
    ∧ (withLeft (1 : Int) (leaf 5)).isBST = false :=
  ⟨BuiltAny.ofWithLeft 1 (leaf 5) (BuiltAny.ofLeaf 5), by decide⟩

/-- C4 (amended): every tree built from `leaf`, `insert`, `from_sorted` on
strictly ascending input, `build` on duplicate-free input, and the compound
constructors applied to subtrees whose values are compatible with the new
root, satisfies the BST invariant at every node. -/
theorem built_ordered_isBST (t : BinaryTree T) (h : BuiltOrdered t) :
    t.isBST = true := by
  induction h with
  | ofLeaf d => exact isBST_leaf d
  | ofWithLeft d l _ hcomp ih =>
    show (mk d (some l) none).isBST = true
    rw [isBST_mk, optToList_some, optBST_some, optToList_none, optBST_none]
    simp only [List.all_nil, Bool.and_true, Bool.and_eq_true, List.all_eq_true,
      decide_eq_true_eq]
    exact ⟨fun x hx => hcomp x hx, ih⟩
  | ofWithRight d r _ hcomp ih =>
    show (mk d none (some r)).isBST = true
    rw [isBST_mk, optToList_some, optBST_some, optToList_none, optBST_none]
    simp only [List.all_nil, Bool.true_and, Bool.and_eq_true, List.all_eq_true,
      decide_eq_true_eq]
    exact ⟨fun x hx => hcomp x hx, ih⟩
  | ofBranch d l r _ _ hcl hcr ihl ihr =>
    show (mk d (some l) (some r)).isBST = true
    rw [isBST_mk, optToList_some, optBST_some, optToList_some, optBST_some]
    simp only [Bool.and_eq_true, List.all_eq_true, decide_eq_true_eq]
    exact ⟨⟨fun x hx => hcl x hx, ihl⟩, fun x hx => hcr x hx, ihr⟩
  | ofInsert t v _ ih => exact isBST_insert t v ih
  | ofFromSorted S t hs h => exact from_sorted_isBST S t hs h
  | ofBuild S t hnd h =>
    rw [build_def] at h
    exact from_sorted_isBST _ t (pairwise_lt_mergeSort S hnd) h

/-- Witness for C4 (amended) at the tree obtained by inserting `1` into
`leaf 5`. -/
theorem built_ordered_isBST_witness :
    BuiltOrdered ((leaf (5 : Int)).insert 1)
    ∧ ((leaf (5 : Int)).insert 1).isBST = true :=
  ⟨BuiltOrdered.ofInsert (leaf 5) 1 (BuiltOrdered.ofLeaf 5),
   built_ordered_isBST _ (BuiltOrdered.ofInsert (leaf 5) 1 (BuiltOrdered.ofLeaf 5))⟩

/-- C5: bulk construction from an empty sequence fails (modelled as `none`,
the panic) for both `from_sorted` and `build`, producing no tree, and on
every non-empty sequence both bulk builders succeed.  (All the remaining
operations — the four constructors, `contains`, `insert` — are total Lean
functions here, so they can fail on no input.) -/
theorem empty_input_only_failure :
    from_sorted ([] : List T) = none ∧ build ([] : List T) = none
    ∧ ∀ S : List T, S ≠ [] → (from_sorted S).isSome = true
        ∧ (build S).isSome = true := by
  refine ⟨from_sorted_nil, ?_, fun S hne => ⟨from_sorted_isSome S hne, ?_⟩⟩
  · rw [build_def, List.mergeSort_nil, from_sorted_nil]
  · rw [build_def]
    apply from_sorted_isSome
    intro h0
    have hl := (List.mergeSort_perm S (fun a b => a ≤ b)).length_eq
    rw [h0] at hl
    exact hne (List.length_eq_zero.mp hl.symm)

/-- Witness for C5 at `S = [3,1,2]`. -/
theorem empty_input_only_failure_witness :
    ([3, 1, 2] : List Int) ≠ []
    ∧ (from_sorted ([3, 1, 2] : List Int)).isSome = true
    ∧ (build ([3, 1, 2] : List Int)).isSome = true :=
  ⟨by decide,
   ((@empty_input_only_failure Int _).2.2 [3, 1, 2] (by decide)).1,
   ((@empty_input_only_failure Int _).2.2 [3, 1, 2] (by decide)).2⟩

/-- C6: an insertion that does not hit the duplicate case attaches exactly
one new leaf holding the value at the position the comparison descent
reaches, leaving every pre-existing node's value and other child untouched
(`ExtendsByLeaf`), and grows the node count by exactly one; under any insert
call the tree never shrinks. -/
theorem insert_attaches_one_leaf (t : BinaryTree T) (v : T) :
    (t.contains v = false →
      ExtendsByLeaf v t (t.insert v) ∧ (t.insert v).size = t.size + 1)
    ∧ t.size ≤ (t.insert v).size :=
  ⟨fun hc => ⟨insert_extends t v hc, extends_size (insert_extends t v hc)⟩,
   size_le_insert t v⟩

/-- Witness for C6 at `t = leaf 5`, `v = 7`. -/
theorem insert_attaches_one_leaf_witness :
    (leaf (5 : Int)).contains 7 = false
    ∧ ExtendsByLeaf 7 (leaf (5 : Int)) ((leaf (5 : Int)).insert 7)
    ∧ ((leaf (5 : Int)).insert 7).size = (leaf (5 : Int)).size + 1
    ∧ (leaf (5 : Int)).size ≤ ((leaf (5 : Int)).insert 7).size :=
  ⟨by decide,
   ((insert_attaches_one_leaf (leaf 5) 7).1 (by decide)).1,
   ((insert_attaches_one_leaf (leaf 5) 7).1 (by decide)).2,
   (insert_attaches_one_leaf (leaf 5) 7).2⟩

/-- C7: `build` is order-independent: on any two permutations of the same
multiset it produces the very same tree (sorting first makes the input
canonical), hence in particular trees with identical `contains` behaviour on
every query. -/
theorem build_order_independent (S S2 : List T) (h : S.Perm S2) :
    build S = build S2
    ∧ ∀ x : T, Option.map (fun t => t.contains x) (build S)
        = Option.map (fun t => t.contains x) (build S2) := by
  have hb : build S = build S2 := by
    rw [build_def, build_def, mergeSort_eq_of_perm S S2 h]
  exact ⟨hb, fun x => by rw [hb]⟩

/-- Witness for C7 at `S = [2,1]`, its shuffle `[1,2]`. -/
theorem build_order_independent_witness :
    ([2, 1] : List Int).Perm [1, 2]
    ∧ build ([2, 1] : List Int) = build [1, 2] :=
  ⟨by decide, (build_order_independent [2, 1] [1, 2] (by decide)).1⟩

/-- C8: the pivot of `from_sorted` is the element at index `⌊n/2⌋` (the
source's `len >> 1`): whenever `from_sorted S` returns a tree, its root value
is `S[S.length >>> 1]`; concretely, `from_sorted [1,2,3,4]` places `3`
(index 2) at the root with left subtree built from `[1,2]` and right subtree
built from `[4]`. -/
theorem from_sorted_pivot_bias :
    (∀ (S : List T) (t : BinaryTree T), from_sorted S = some t →
      S[S.length >>> 1]? = some t.data)
    ∧ from_sorted ([1, 2, 3, 4] : List Int)
        = some (branch 3 (withLeft 2 (leaf 1)) (leaf 4))
    ∧ from_sorted ([1, 2, 3, 4] : List Int)
        = (from_sorted [1, 2]).bind fun l =>
            (from_sorted [4]).map fun r => branch 3 l r := by
  refine ⟨?_, from_sorted_c1234, ?_⟩
  · intro S t h
    rcases eq_or_ne S [] with rfl | hne
    · rw [from_sorted_nil] at h
      cases h
    · have hlen : S.length ≠ 0 := fun h0 => hne (List.length_eq_zero.mp h0)
      have hdiv := shiftRight_one_div_two S.length
      have hpf : S.length >>> 1 < S.length := by omega
      rw [from_sorted_unfold S hlen hpf] at h
      cases hL : (if 0 < S.length >>> 1 then
          Option.map some (from_sorted (S.take (S.length >>> 1)))
        else some none) with
      | none => rw [hL] at h; simp at h
      | some lo =>
        cases hR : (if S.length >>> 1 + 1 < S.length then
            Option.map some (from_sorted (S.drop (S.length >>> 1 + 1)))
          else some none) with
        | none => rw [hL, hR] at h; simp at h
        | some ro =>
          rw [hL, hR] at h
          simp only at h
          injection h with h
          rw [← h, data_mk, List.get_eq_getElem]
          exact List.getElem?_eq_getElem hpf
  · rw [from_sorted_c1234]
    simp [from_sorted, branch, withLeft, leaf]

/-- Witness for C8's general part at `S = [1,2,3,4]`. -/
theorem from_sorted_pivot_bias_witness :
    ([1, 2, 3, 4] : List Int)[([1, 2, 3, 4] : List Int).length >>> 1]?
      = some (branch (3 : Int) (withLeft 2 (leaf 1)) (leaf 4)).data :=
  (@from_sorted_pivot_bias Int _).1 [1, 2, 3, 4] _ from_sorted_c1234

/-- C9: the final fall-through `return false` of `contains` is unreachable:
for any boolean `fb` substituted for it, the function computes the same
answers, because for a linear (trichotomous) order one of the equal / greater
/ less branches always fires. -/
theorem contains_fallthrough_unreachable : ∀ (fb : Bool) (t : BinaryTree T)
    (v : T), containsFB fb t v = t.contains v := by
  intro fb t
  induction t using ind with
  | h d l r ihl ihr =>
    intro v
    rw [containsFB_mk, contains_mk]
    by_cases hvd : v = d
    · rw [if_pos hvd, if_pos hvd]
    · rw [if_neg hvd, if_neg hvd]
      by_cases hgt : v > d
      · rw [if_pos hgt, if_pos hgt]
        cases r with
        | none => rw [optContainsFB_none, optContains_none]
        | some rt =>
          rw [optContainsFB_some, optContains_some]
          exact ihr rt rfl v
      · have hlt : v < d := lt_of_le_of_ne (le_of_not_lt hgt) hvd
        rw [if_neg hgt, if_neg hgt, if_pos hlt, if_pos hlt]
        cases l with
        | none => rw [optContainsFB_none, optContains_none]
        | some tl =>
          rw [optContainsFB_some, optContains_some]
          exact ihl tl rfl v

/-- C10: `from_sorted` recurses to depth at most the length of its input:
with `S.length` units of fuel the fuelled variant never runs dry and agrees
with `from_sorted` — each recursive call is on a strictly shorter slice. -/
theorem from_sorted_depth_bounded (fuel : Nat) (S : List T)
    (h : S.length ≤ fuel) : from_sorted_fuel fuel S = from_sorted S :=
  from_sorted_fuel_eq fuel S h

/-- Witness for C10 at `S = [1,2,3]`, `fuel = 3`. -/
theorem from_sorted_depth_bounded_witness :
    ([1, 2, 3] : List Int).length ≤ 3
    ∧ from_sorted_fuel 3 ([1, 2, 3] : List Int) = from_sorted [1, 2, 3] :=
  ⟨by decide, from_sorted_depth_bounded 3 [1, 2, 3] (by decide)⟩

end BinaryTree

end RustBinaryTree
